import Mathlib

/-!
Shallow embedding of the electric-field visualization repository
(`src/secondTry.py` and `src/unnamed/part_000`, a.k.a. "first try.py").

Charges are triples `(q, qx, qy) : ℝ × ℝ × ℝ`; the field evaluator
`get_electric_field` folds over the charge list accumulating `(Ex, Ey)`,
exactly as the Python loop does.  Python floats are modelled by real
numbers (the spec's properties are stated "in exact arithmetic").
-/

noncomputable section

namespace EField

/-- Tolerance constant of `src/secondTry.py` line 27: `epsilon = 1e-6`. -/
def epsilon : ℝ := 1 / 1000000

/-- One iteration of the accumulation loop shared by the two variants of
`get_electric_field`, parametrized by the skip predicate applied to
`r_squared`.  Mirrors the loop body of `src/secondTry.py` lines 28–40 and
`src/unnamed/part_000` lines 22–37: compute the displacement `dx, dy`, the
squared distance `r_squared`; if the skip guard fires, leave the accumulator
unchanged (`continue`); otherwise accumulate `E * dx / r` and `E * dy / r`
with `r = sqrt(r_squared)` and `E = q / r_squared`. -/
def field_step (skip : ℝ → Prop) [DecidablePred skip] (x y : ℝ)
    (Exy : ℝ × ℝ) (c : ℝ × ℝ × ℝ) : ℝ × ℝ :=
  let (q, qx, qy) := c
  let dx := x - qx
  let dy := y - qy
  let r_squared := dx ^ 2 + dy ^ 2
  if skip r_squared then Exy
  else
    let r := Real.sqrt r_squared
    let E := q / r_squared
    (Exy.1 + E * (dx / r), Exy.2 + E * (dy / r))

/-- `get_electric_field` of `src/secondTry.py` (lines 22–42): starts from
`Ex, Ey = 0, 0` and accumulates every charge's contribution, skipping a
charge when `r_squared < epsilon ** 2` (epsilon-ball skip). -/
def get_electric_field (charges : List (ℝ × ℝ × ℝ)) (x y : ℝ) : ℝ × ℝ :=
  charges.foldl (field_step (fun r_squared => r_squared < epsilon ^ 2) x y) (0, 0)

/-- `get_electric_field` of `src/unnamed/part_000` (lines 5–39): identical
loop but with the exact-zero skip guard `r_squared == 0`. -/
def get_electric_field0 (charges : List (ℝ × ℝ × ℝ)) (x y : ℝ) : ℝ × ℝ :=
  charges.foldl (field_step (fun r_squared => r_squared = 0) x y) (0, 0)

/-- The single-charge contribution added by one loop iteration (the step
applied to the zero accumulator). -/
def contrib (skip : ℝ → Prop) [DecidablePred skip] (x y : ℝ)
    (c : ℝ × ℝ × ℝ) : ℝ × ℝ :=
  field_step skip x y (0, 0) c

/-- `np.linspace a b n`: `n` evenly spaced points from `a` to `b` inclusive
(`src/secondTry.py` lines 50–51, `src/unnamed/part_000` lines 52–53). -/
def linspace (a b : ℝ) (n : ℕ) : List ℝ :=
  (List.range n).map (fun i : ℕ => a + (b - a) * (i : ℝ) / ((n : ℝ) - 1))

/-- The grid-sampling step common to `create_plot` (`src/secondTry.py`
lines 50–57) and `plot_electric_field` (`src/unnamed/part_000` lines 52–60),
parametrized by the field evaluator `f`: build the meshgrid
`X[i,j] = xs[j]`, `Y[i,j] = ys[i]` over linspaces of the two ranges and fill
`Ex[i,j], Ey[i,j] = f(charges, X[i,j], Y[i,j])`. -/
def sample (f : List (ℝ × ℝ × ℝ) → ℝ → ℝ → ℝ × ℝ)
    (charges : List (ℝ × ℝ × ℝ)) (x_range y_range : ℝ × ℝ)
    (grid_density : ℕ) : List (List ℝ) × List (List ℝ) :=
  let xs := linspace x_range.1 x_range.2 grid_density
  let ys := linspace y_range.1 y_range.2 grid_density
  (ys.map fun yv => xs.map fun xv => (f charges xv yv).1,
   ys.map fun yv => xs.map fun xv => (f charges xv yv).2)

/-! ### Basic accumulation lemmas -/

lemma field_step_eq (skip : ℝ → Prop) [DecidablePred skip] (x y : ℝ)
    (p : ℝ × ℝ) (c : ℝ × ℝ × ℝ) :
    field_step skip x y p c =
      (p.1 + (contrib skip x y c).1, p.2 + (contrib skip x y c).2) := by
  obtain ⟨q, qx, qy⟩ := c
  simp only [field_step, contrib]
  split <;> simp

lemma foldl_field_step (skip : ℝ → Prop) [DecidablePred skip]
    (charges : List (ℝ × ℝ × ℝ)) (x y : ℝ) (p : ℝ × ℝ) :
    charges.foldl (field_step skip x y) p =
      (p.1 + (charges.map fun c => (contrib skip x y c).1).sum,
       p.2 + (charges.map fun c => (contrib skip x y c).2).sum) := by
  induction charges generalizing p with
  | nil => simp
  | cons c rest ih =>
    rw [List.foldl_cons, ih, field_step_eq]
    simp only [List.map_cons, List.sum_cons]
    exact Prod.ext (by ring) (by ring)

lemma get_electric_field_eq_sum (charges : List (ℝ × ℝ × ℝ)) (x y : ℝ) :
    get_electric_field charges x y =
      ((charges.map fun c =>
          (contrib (fun r2 => r2 < epsilon ^ 2) x y c).1).sum,
       (charges.map fun c =>
          (contrib (fun r2 => r2 < epsilon ^ 2) x y c).2).sum) := by
  rw [get_electric_field, foldl_field_step]
  simp

lemma get_electric_field0_eq_sum (charges : List (ℝ × ℝ × ℝ)) (x y : ℝ) :
    get_electric_field0 charges x y =
      ((charges.map fun c => (contrib (fun r2 => r2 = 0) x y c).1).sum,
       (charges.map fun c => (contrib (fun r2 => r2 = 0) x y c).2).sum) := by
  rw [get_electric_field0, foldl_field_step]
  simp

lemma contrib_of_skip (skip : ℝ → Prop) [DecidablePred skip] (x y q qx qy : ℝ)
    (h : skip ((x - qx) ^ 2 + (y - qy) ^ 2)) :
    contrib skip x y (q, qx, qy) = (0, 0) := by
  simp only [contrib, field_step]
  rw [if_pos h]

lemma contrib_of_not_skip (skip : ℝ → Prop) [DecidablePred skip]
    (x y q qx qy : ℝ) (h : ¬ skip ((x - qx) ^ 2 + (y - qy) ^ 2)) :
    contrib skip x y (q, qx, qy) =
      (q / ((x - qx) ^ 2 + (y - qy) ^ 2) *
         ((x - qx) / Real.sqrt ((x - qx) ^ 2 + (y - qy) ^ 2)),
       q / ((x - qx) ^ 2 + (y - qy) ^ 2) *
         ((y - qy) / Real.sqrt ((x - qx) ^ 2 + (y - qy) ^ 2))) := by
  simp only [contrib, field_step]
  rw [if_neg h]
  simp

lemma contrib_zero_charge (skip : ℝ → Prop) [DecidablePred skip]
    (x y px py : ℝ) : contrib skip x y (0, px, py) = (0, 0) := by
  by_cases h : skip ((x - px) ^ 2 + (y - py) ^ 2)
  · exact contrib_of_skip skip x y 0 px py h
  · rw [contrib_of_not_skip skip x y 0 px py h]
    simp

lemma get_electric_field_singleton (x y : ℝ) (c : ℝ × ℝ × ℝ) :
    get_electric_field [c] x y =
      contrib (fun r2 => r2 < epsilon ^ 2) x y c := by
  rw [get_electric_field_eq_sum, List.map_singleton, List.map_singleton,
    List.sum_singleton, List.sum_singleton]

lemma get_electric_field0_singleton (x y : ℝ) (c : ℝ × ℝ × ℝ) :
    get_electric_field0 [c] x y = contrib (fun r2 => r2 = 0) x y c := by
  rw [get_electric_field0_eq_sum, List.map_singleton, List.map_singleton,
    List.sum_singleton, List.sum_singleton]

lemma epsilon_sq_pos : (0 : ℝ) < epsilon ^ 2 := by norm_num [epsilon]

/-- Magnitude of the single-charge field formula: the Euclidean norm of
`(q / r2 * (x / sqrt r2), q / r2 * (y / sqrt r2))` with `r2 = x² + y² > 0`
is `|q| / r2`. -/
lemma magnitude_single (q x y : ℝ) (hR2 : 0 < x ^ 2 + y ^ 2) :
    Real.sqrt ((q / (x ^ 2 + y ^ 2) * (x / Real.sqrt (x ^ 2 + y ^ 2))) ^ 2 +
        (q / (x ^ 2 + y ^ 2) * (y / Real.sqrt (x ^ 2 + y ^ 2))) ^ 2) =
      |q| / (x ^ 2 + y ^ 2) := by
  have hs : Real.sqrt (x ^ 2 + y ^ 2) ^ 2 = x ^ 2 + y ^ 2 :=
    Real.sq_sqrt hR2.le
  have hcalc : (q / (x ^ 2 + y ^ 2) * (x / Real.sqrt (x ^ 2 + y ^ 2))) ^ 2 +
      (q / (x ^ 2 + y ^ 2) * (y / Real.sqrt (x ^ 2 + y ^ 2))) ^ 2 =
      (q / (x ^ 2 + y ^ 2)) ^ 2 *
        ((x ^ 2 + y ^ 2) / Real.sqrt (x ^ 2 + y ^ 2) ^ 2) := by
    ring
  rw [hcalc, hs, div_self (ne_of_gt hR2), mul_one, Real.sqrt_sq_eq_abs,
    abs_div, abs_of_pos hR2]

/-! ### Claim theorems -/

/-- C1: Superposition linearity of the field evaluator.  For any two charges
`A` and `B` and any query point `(x, y)` whose squared distance to each
charge is at least the skip tolerance `epsilon ^ 2`, evaluating on `[A, B]`
equals the component-wise sum of the evaluations on `[A]` and on `[B]`,
for both the epsilon-skip variant (`secondTry.py`) and the exact-zero-skip
variant (`part_000`). -/
theorem C1_superposition (A B : ℝ × ℝ × ℝ) (x y : ℝ)
    (hA : epsilon ^ 2 ≤ (x - A.2.1) ^ 2 + (y - A.2.2) ^ 2)
    (hB : epsilon ^ 2 ≤ (x - B.2.1) ^ 2 + (y - B.2.2) ^ 2) :
    (get_electric_field [A, B] x y =
       ((get_electric_field [A] x y).1 + (get_electric_field [B] x y).1,
        (get_electric_field [A] x y).2 + (get_electric_field [B] x y).2)) ∧
    (get_electric_field0 [A, B] x y =
       ((get_electric_field0 [A] x y).1 + (get_electric_field0 [B] x y).1,
        (get_electric_field0 [A] x y).2 + (get_electric_field0 [B] x y).2)) := by
  constructor <;>
    simp [get_electric_field_eq_sum, get_electric_field0_eq_sum]

/-- Witness for C1 at `A = (1,0,0)`, `B = (1,1,0)`, point `(3,4)`. -/
theorem C1_superposition_witness :
    (epsilon ^ 2 ≤ ((3 : ℝ) - ((1 : ℝ), (0 : ℝ), (0 : ℝ)).2.1) ^ 2 +
       ((4 : ℝ) - ((1 : ℝ), (0 : ℝ), (0 : ℝ)).2.2) ^ 2) ∧
    (epsilon ^ 2 ≤ ((3 : ℝ) - ((1 : ℝ), (1 : ℝ), (0 : ℝ)).2.1) ^ 2 +
       ((4 : ℝ) - ((1 : ℝ), (1 : ℝ), (0 : ℝ)).2.2) ^ 2) ∧
    ((get_electric_field [(1, 0, 0), (1, 1, 0)] 3 4 =
       ((get_electric_field [(1, 0, 0)] 3 4).1 +
          (get_electric_field [(1, 1, 0)] 3 4).1,
        (get_electric_field [(1, 0, 0)] 3 4).2 +
          (get_electric_field [(1, 1, 0)] 3 4).2)) ∧
     (get_electric_field0 [(1, 0, 0), (1, 1, 0)] 3 4 =
       ((get_electric_field0 [(1, 0, 0)] 3 4).1 +
          (get_electric_field0 [(1, 1, 0)] 3 4).1,
        (get_electric_field0 [(1, 0, 0)] 3 4).2 +
          (get_electric_field0 [(1, 1, 0)] 3 4).2))) :=
  ⟨by norm_num [epsilon], by norm_num [epsilon],
   C1_superposition (1, 0, 0) (1, 1, 0) 3 4 (by norm_num [epsilon])
     (by norm_num [epsilon])⟩

/-- C2: Singularity safety.  Evaluating the single-charge configuration
`[(1, 0, 0)]` at the coincident point `(0, 0)` returns exactly `(0, 0)` in
both variants: the sole charge's contribution is skipped by the guard, so
the divisions by `r_squared` and `r` are never reached (in this embedding
the evaluator is a total function into `ℝ × ℝ`, hence always finite). -/
theorem C2_singularity_safety :
    get_electric_field [(1, 0, 0)] 0 0 = (0, 0) ∧
    get_electric_field0 [(1, 0, 0)] 0 0 = (0, 0) := by
  have h1 : ((0 : ℝ) - 0) ^ 2 + ((0 : ℝ) - 0) ^ 2 < epsilon ^ 2 := by
    norm_num [epsilon]
  have h0 : ((0 : ℝ) - 0) ^ 2 + ((0 : ℝ) - 0) ^ 2 = 0 := by norm_num
  have c1 : contrib (fun r2 => r2 < epsilon ^ 2) 0 0
      ((1 : ℝ), (0 : ℝ), (0 : ℝ)) = (0, 0) :=
    contrib_of_skip _ 0 0 1 0 0 h1
  have c0 : contrib (fun r2 => r2 = 0) 0 0
      ((1 : ℝ), (0 : ℝ), (0 : ℝ)) = (0, 0) :=
    contrib_of_skip _ 0 0 1 0 0 h0
  constructor
  · rw [get_electric_field_eq_sum, List.map_singleton, List.map_singleton,
      List.sum_singleton, List.sum_singleton, c1]
  · rw [get_electric_field0_eq_sum, List.map_singleton, List.map_singleton,
      List.sum_singleton, List.sum_singleton, c0]

/-- C9: A charge with `q = 0` is an identity: appending `(0, px, py)` to any
configuration leaves the evaluation unchanged at every query point, in both
variants (when not skipped, its contribution is `0 / r_squared * _ = 0`). -/
theorem C9_zero_charge_identity (charges : List (ℝ × ℝ × ℝ))
    (px py x y : ℝ) :
    get_electric_field (charges ++ [(0, px, py)]) x y =
      get_electric_field charges x y ∧
    get_electric_field0 (charges ++ [(0, px, py)]) x y =
      get_electric_field0 charges x y := by
  constructor <;>
    simp [get_electric_field_eq_sum, get_electric_field0_eq_sum,
      contrib_zero_charge]

/-- C3: Inverse-square falloff.  For a single charge `(q, 0, 0)` at the
origin and any query point `(x, y)` at squared distance `r2 = x² + y²`
strictly above the skip tolerance, the magnitude `sqrt(Ex² + Ey²)` of the
returned vector is exactly `|q| / r2`, in both variants. -/
theorem C3_inverse_square (q x y : ℝ) (h : epsilon ^ 2 < x ^ 2 + y ^ 2) :
    (Real.sqrt ((get_electric_field [(q, 0, 0)] x y).1 ^ 2 +
        (get_electric_field [(q, 0, 0)] x y).2 ^ 2) =
      |q| / (x ^ 2 + y ^ 2)) ∧
    (Real.sqrt ((get_electric_field0 [(q, 0, 0)] x y).1 ^ 2 +
        (get_electric_field0 [(q, 0, 0)] x y).2 ^ 2) =
      |q| / (x ^ 2 + y ^ 2)) := by
  have hR2 : (0 : ℝ) < x ^ 2 + y ^ 2 := lt_trans epsilon_sq_pos h
  have hx : (x - 0) ^ 2 + (y - 0) ^ 2 = x ^ 2 + y ^ 2 := by ring
  have hskip : ¬ ((x - 0) ^ 2 + (y - 0) ^ 2 < epsilon ^ 2) := by
    rw [hx]; exact not_lt.mpr h.le
  have hz : ¬ ((x - 0) ^ 2 + (y - 0) ^ 2 = 0) := by
    rw [hx]; exact ne_of_gt hR2
  constructor
  · rw [get_electric_field_singleton,
      contrib_of_not_skip _ _ _ _ _ _ hskip]
    simp only [sub_zero]
    exact magnitude_single q x y hR2
  · rw [get_electric_field0_singleton,
      contrib_of_not_skip _ _ _ _ _ _ hz]
    simp only [sub_zero]
    exact magnitude_single q x y hR2

/-- Witness for C3 at `q = 2`, point `(3, 4)` (distance 5, so magnitude
`|2| / 25`). -/
theorem C3_inverse_square_witness :
    (epsilon ^ 2 < (3 : ℝ) ^ 2 + (4 : ℝ) ^ 2) ∧
    ((Real.sqrt ((get_electric_field [(2, 0, 0)] 3 4).1 ^ 2 +
        (get_electric_field [(2, 0, 0)] 3 4).2 ^ 2) =
      |(2 : ℝ)| / ((3 : ℝ) ^ 2 + (4 : ℝ) ^ 2)) ∧
     (Real.sqrt ((get_electric_field0 [(2, 0, 0)] 3 4).1 ^ 2 +
        (get_electric_field0 [(2, 0, 0)] 3 4).2 ^ 2) =
      |(2 : ℝ)| / ((3 : ℝ) ^ 2 + (4 : ℝ) ^ 2))) :=
  ⟨by norm_num [epsilon],
   C3_inverse_square 2 3 4 (by norm_num [epsilon])⟩

/-- C5: Sign symmetry.  For a single charge `(q, 0, 0)` at the origin and
any point `(x, y)` outside the skip tolerance, evaluating at `(-x, -y)`
gives the component-wise negation of the evaluation at `(x, y)`, in both
variants (point symmetry through the origin). -/
theorem C5_sign_symmetry (q x y : ℝ) (h : epsilon ^ 2 ≤ x ^ 2 + y ^ 2) :
    (get_electric_field [(q, 0, 0)] (-x) (-y) =
       (-(get_electric_field [(q, 0, 0)] x y).1,
        -(get_electric_field [(q, 0, 0)] x y).2)) ∧
    (get_electric_field0 [(q, 0, 0)] (-x) (-y) =
       (-(get_electric_field0 [(q, 0, 0)] x y).1,
        -(get_electric_field0 [(q, 0, 0)] x y).2)) := by
  have hR2 : (0 : ℝ) < x ^ 2 + y ^ 2 := lt_of_lt_of_le epsilon_sq_pos h
  have hx : (x - 0) ^ 2 + (y - 0) ^ 2 = x ^ 2 + y ^ 2 := by ring
  have hnx : (-x - 0) ^ 2 + (-y - 0) ^ 2 = x ^ 2 + y ^ 2 := by ring
  have hskip : ¬ ((x - 0) ^ 2 + (y - 0) ^ 2 < epsilon ^ 2) := by
    rw [hx]; exact not_lt.mpr h
  have hskipn : ¬ ((-x - 0) ^ 2 + (-y - 0) ^ 2 < epsilon ^ 2) := by
    rw [hnx]; exact not_lt.mpr h
  have hz : ¬ ((x - 0) ^ 2 + (y - 0) ^ 2 = 0) := by
    rw [hx]; exact ne_of_gt hR2
  have hzn : ¬ ((-x - 0) ^ 2 + (-y - 0) ^ 2 = 0) := by
    rw [hnx]; exact ne_of_gt hR2
  constructor
  · rw [get_electric_field_singleton, get_electric_field_singleton,
      contrib_of_not_skip _ _ _ _ _ _ hskipn,
      contrib_of_not_skip _ _ _ _ _ _ hskip, hnx, hx]
    exact Prod.ext (by ring) (by ring)
  · rw [get_electric_field0_singleton, get_electric_field0_singleton,
      contrib_of_not_skip _ _ _ _ _ _ hzn,
      contrib_of_not_skip _ _ _ _ _ _ hz, hnx, hx]
    exact Prod.ext (by ring) (by ring)

/-- Witness for C5 at `q = 1`, point `(3, 4)`. -/
theorem C5_sign_symmetry_witness :
    (epsilon ^ 2 ≤ (3 : ℝ) ^ 2 + (4 : ℝ) ^ 2) ∧
    ((get_electric_field [(1, 0, 0)] (-3) (-4) =
       (-(get_electric_field [(1, 0, 0)] 3 4).1,
        -(get_electric_field [(1, 0, 0)] 3 4).2)) ∧
     (get_electric_field0 [(1, 0, 0)] (-3) (-4) =
       (-(get_electric_field0 [(1, 0, 0)] 3 4).1,
        -(get_electric_field0 [(1, 0, 0)] 3 4).2))) :=
  ⟨by norm_num [epsilon],
   C5_sign_symmetry 1 3 4 (by norm_num [epsilon])⟩

lemma radial_component (q d R2 : ℝ) (hR2 : 0 < R2) :
    q / R2 * (d / Real.sqrt R2) = q / Real.sqrt R2 ^ 3 * d := by
  have hs : Real.sqrt R2 ^ 2 = R2 := Real.sq_sqrt hR2.le
  have h3 : Real.sqrt R2 ^ 3 = R2 * Real.sqrt R2 := by
    rw [show Real.sqrt R2 ^ 3 = Real.sqrt R2 ^ 2 * Real.sqrt R2 from by ring,
      hs]
  rw [h3, div_mul_div_comm, div_mul_eq_mul_div]

/-- C10: Radial direction.  For a single charge `(q, qx, qy)` and a query
point at squared distance `r2` at least the skip tolerance, the returned
vector is the scalar `q / r2^(3/2)` (written `q / sqrt(r2)³`) times the
displacement `(x - qx, y - qy)`, in both variants; the scalar is positive
when `q > 0` (field away from the charge) and negative when `q < 0`
(field toward the charge). -/
theorem C10_radial_direction (q qx qy x y : ℝ)
    (h : epsilon ^ 2 ≤ (x - qx) ^ 2 + (y - qy) ^ 2) :
    (get_electric_field [(q, qx, qy)] x y =
       (q / Real.sqrt ((x - qx) ^ 2 + (y - qy) ^ 2) ^ 3 * (x - qx),
        q / Real.sqrt ((x - qx) ^ 2 + (y - qy) ^ 2) ^ 3 * (y - qy))) ∧
    (get_electric_field0 [(q, qx, qy)] x y =
       (q / Real.sqrt ((x - qx) ^ 2 + (y - qy) ^ 2) ^ 3 * (x - qx),
        q / Real.sqrt ((x - qx) ^ 2 + (y - qy) ^ 2) ^ 3 * (y - qy))) ∧
    (0 < q → 0 < q / Real.sqrt ((x - qx) ^ 2 + (y - qy) ^ 2) ^ 3) ∧
    (q < 0 → q / Real.sqrt ((x - qx) ^ 2 + (y - qy) ^ 2) ^ 3 < 0) := by
  have hR2 : (0 : ℝ) < (x - qx) ^ 2 + (y - qy) ^ 2 :=
    lt_of_lt_of_le epsilon_sq_pos h
  have hskip : ¬ ((x - qx) ^ 2 + (y - qy) ^ 2 < epsilon ^ 2) := not_lt.mpr h
  have hz : ¬ ((x - qx) ^ 2 + (y - qy) ^ 2 = 0) := ne_of_gt hR2
  have hsp : (0 : ℝ) < Real.sqrt ((x - qx) ^ 2 + (y - qy) ^ 2) ^ 3 :=
    pow_pos (Real.sqrt_pos.mpr hR2) 3
  refine ⟨?_, ?_, ?_, ?_⟩
  · rw [get_electric_field_singleton,
      contrib_of_not_skip _ _ _ _ _ _ hskip,
      radial_component q (x - qx) _ hR2, radial_component q (y - qy) _ hR2]
  · rw [get_electric_field0_singleton,
      contrib_of_not_skip _ _ _ _ _ _ hz,
      radial_component q (x - qx) _ hR2, radial_component q (y - qy) _ hR2]
  · intro hqpos
    exact div_pos hqpos hsp
  · intro hqneg
    exact div_neg_of_neg_of_pos hqneg hsp

/-- Witness for C10 at `q = 1`, charge at the origin, point `(3, 4)`. -/
theorem C10_radial_direction_witness :
    (epsilon ^ 2 ≤ ((3 : ℝ) - 0) ^ 2 + ((4 : ℝ) - 0) ^ 2) ∧
    ((get_electric_field [(1, 0, 0)] 3 4 =
       (1 / Real.sqrt (((3 : ℝ) - 0) ^ 2 + ((4 : ℝ) - 0) ^ 2) ^ 3 *
          ((3 : ℝ) - 0),
        1 / Real.sqrt (((3 : ℝ) - 0) ^ 2 + ((4 : ℝ) - 0) ^ 2) ^ 3 *
          ((4 : ℝ) - 0))) ∧
     (get_electric_field0 [(1, 0, 0)] 3 4 =
       (1 / Real.sqrt (((3 : ℝ) - 0) ^ 2 + ((4 : ℝ) - 0) ^ 2) ^ 3 *
          ((3 : ℝ) - 0),
        1 / Real.sqrt (((3 : ℝ) - 0) ^ 2 + ((4 : ℝ) - 0) ^ 2) ^ 3 *
          ((4 : ℝ) - 0))) ∧
     ((0 : ℝ) < 1 →
       0 < 1 / Real.sqrt (((3 : ℝ) - 0) ^ 2 + ((4 : ℝ) - 0) ^ 2) ^ 3) ∧
     ((1 : ℝ) < 0 →
       1 / Real.sqrt (((3 : ℝ) - 0) ^ 2 + ((4 : ℝ) - 0) ^ 2) ^ 3 < 0)) :=
  ⟨by norm_num [epsilon],
   C10_radial_direction 1 0 0 3 4 (by norm_num [epsilon])⟩

/-- C8: Epsilon-ball singularity variant (interactive app).  For a single
charge with `q ≠ 0`, the evaluation returns `(0, 0)` exactly when the query
point lies within the fixed tolerance of the charge's position, i.e. when
`r2 = dx² + dy² < epsilon²` with `epsilon = 1e-6`; in particular a charge
within `epsilon` of (but not exactly at) the query point contributes
nothing. -/
theorem C8_epsilon_ball_skip (q qx qy x y : ℝ) (hq : q ≠ 0) :
    get_electric_field [(q, qx, qy)] x y = (0, 0) ↔
      (x - qx) ^ 2 + (y - qy) ^ 2 < epsilon ^ 2 := by
  constructor
  · intro h0
    by_contra hlt
    have hR2 : (0 : ℝ) < (x - qx) ^ 2 + (y - qy) ^ 2 :=
      lt_of_lt_of_le epsilon_sq_pos (not_lt.mp hlt)
    have hsne : Real.sqrt ((x - qx) ^ 2 + (y - qy) ^ 2) ≠ 0 :=
      ne_of_gt (Real.sqrt_pos.mpr hR2)
    rw [get_electric_field_singleton,
      contrib_of_not_skip _ _ _ _ _ _ hlt, Prod.mk.injEq] at h0
    obtain ⟨h1, h2⟩ := h0
    have hqR : q / ((x - qx) ^ 2 + (y - qy) ^ 2) ≠ 0 :=
      div_ne_zero hq (ne_of_gt hR2)
    have hdx : x - qx = 0 := by
      rcases mul_eq_zero.mp h1 with hcase | hcase
      · exact absurd hcase hqR
      · rcases div_eq_zero_iff.mp hcase with hcase2 | hcase2
        · exact hcase2
        · exact absurd hcase2 hsne
    have hdy : y - qy = 0 := by
      rcases mul_eq_zero.mp h2 with hcase | hcase
      · exact absurd hcase hqR
      · rcases div_eq_zero_iff.mp hcase with hcase2 | hcase2
        · exact hcase2
        · exact absurd hcase2 hsne
    rw [hdx, hdy] at hR2
    norm_num at hR2
  · intro hlt
    rw [get_electric_field_singleton]
    exact contrib_of_skip (fun r2 => r2 < epsilon ^ 2) x y q qx qy hlt

/-- Witness for C8 at `q = 1`, charge at the origin, query point
`(1e-7, 0)` (within epsilon of, but not exactly at, the charge). -/
theorem C8_epsilon_ball_skip_witness :
    ((1 : ℝ) ≠ 0) ∧
    (get_electric_field [(1, 0, 0)] (1 / 10000000) 0 = (0, 0) ↔
      ((1 : ℝ) / 10000000 - 0) ^ 2 + ((0 : ℝ) - 0) ^ 2 < epsilon ^ 2) :=
  ⟨by norm_num,
   C8_epsilon_ball_skip 1 0 0 (1 / 10000000) 0 (by norm_num)⟩

lemma sqrt_four : Real.sqrt 4 = 2 := by
  rw [show (4 : ℝ) = 2 ^ 2 by norm_num,
    Real.sqrt_sq (by norm_num : (0 : ℝ) ≤ 2)]

/-- Evaluation of the default dipole `[(1, -2, 0), (-1, 2, 0)]` at the
origin for the epsilon-skip variant: both contributions point in `+x`
(`(1/4, 0)` each), so the total is `(1/2, 0)`. -/
lemma dipole_value :
    get_electric_field [(1, -2, 0), (-1, 2, 0)] 0 0 = (1 / 2, 0) := by
  have hA : ¬ (((0 : ℝ) - (-2)) ^ 2 + ((0 : ℝ) - 0) ^ 2 < epsilon ^ 2) := by
    norm_num [epsilon]
  have hB : ¬ (((0 : ℝ) - 2) ^ 2 + ((0 : ℝ) - 0) ^ 2 < epsilon ^ 2) := by
    norm_num [epsilon]
  have cA : contrib (fun r2 => r2 < epsilon ^ 2) 0 0
      ((1 : ℝ), (-2 : ℝ), (0 : ℝ)) = (1 / 4, 0) := by
    rw [contrib_of_not_skip (fun r2 => r2 < epsilon ^ 2) 0 0 1 (-2) 0 hA]
    norm_num [sqrt_four]
  have cB : contrib (fun r2 => r2 < epsilon ^ 2) 0 0
      ((-1 : ℝ), (2 : ℝ), (0 : ℝ)) = (1 / 4, 0) := by
    rw [contrib_of_not_skip (fun r2 => r2 < epsilon ^ 2) 0 0 (-1) 2 0 hB]
    norm_num [sqrt_four]
  rw [get_electric_field_eq_sum]
  simp only [List.map_cons, List.map_nil, List.sum_cons, List.sum_nil]
  rw [cA, cB]
  norm_num

/-- Same dipole evaluation for the exact-zero-skip variant. -/
lemma dipole0_value :
    get_electric_field0 [(1, -2, 0), (-1, 2, 0)] 0 0 = (1 / 2, 0) := by
  have hA : ¬ (((0 : ℝ) - (-2)) ^ 2 + ((0 : ℝ) - 0) ^ 2 = 0) := by norm_num
  have hB : ¬ (((0 : ℝ) - 2) ^ 2 + ((0 : ℝ) - 0) ^ 2 = 0) := by norm_num
  have cA : contrib (fun r2 => r2 = 0) 0 0
      ((1 : ℝ), (-2 : ℝ), (0 : ℝ)) = (1 / 4, 0) := by
    rw [contrib_of_not_skip (fun r2 => r2 = 0) 0 0 1 (-2) 0 hA]
    norm_num [sqrt_four]
  have cB : contrib (fun r2 => r2 = 0) 0 0
      ((-1 : ℝ), (2 : ℝ), (0 : ℝ)) = (1 / 4, 0) := by
    rw [contrib_of_not_skip (fun r2 => r2 = 0) 0 0 (-1) 2 0 hB]
    norm_num [sqrt_four]
  rw [get_electric_field0_eq_sum]
  simp only [List.map_cons, List.map_nil, List.sum_cons, List.sum_nil]
  rw [cA, cB]
  norm_num

/-- C4 counterexample: the claim asserts `Ex ≈ -0.5` for the dipole
`[(1, -2, 0), (-1, 2, 0)]` at `(0, 0)`, but the code yields `Ex = +1/2`
(each charge's contribution points in `+x`), which is not `-1/2`. -/
theorem C4_dipole_counterexample :
    (get_electric_field [(1, -2, 0), (-1, 2, 0)] 0 0).1 = 1 / 2 ∧
    ((1 : ℝ) / 2) ≠ -(1 / 2) := by
  constructor
  · rw [dipole_value]
  · norm_num

/-- C4 amended: for the dipole `[(1, -2, 0), (-1, 2, 0)]`, evaluating at
`(0, 0)` yields exactly `(Ex, Ey) = (1/2, 0)` — the net field points in
the `+x` direction, away from the positive charge at `-2` and toward the
negative charge at `+2` — in both variants. -/
theorem C4_dipole_amended :
    get_electric_field [(1, -2, 0), (-1, 2, 0)] 0 0 = (1 / 2, 0) ∧
    get_electric_field0 [(1, -2, 0), (-1, 2, 0)] 0 0 = (1 / 2, 0) :=
  ⟨dipole_value, dipole0_value⟩

lemma linspace_length (a b : ℝ) (n : ℕ) : (linspace a b n).length = n := by
  simp only [linspace, List.length_map, List.length_range]

lemma linspace_first (a b : ℝ) (n : ℕ) (hn : 0 < n) :
    (linspace a b n)[0]? = some a := by
  simp only [linspace, List.getElem?_map, List.getElem?_range hn,
    Option.map_some']
  congr 1
  push_cast
  ring

lemma linspace_last (a b : ℝ) (n : ℕ) (hn : 2 ≤ n) :
    (linspace a b n)[n - 1]? = some b := by
  have h1 : n - 1 < n := by omega
  have hone : 1 ≤ n := by omega
  have hcast : ((n - 1 : ℕ) : ℝ) = (n : ℝ) - 1 := by
    push_cast [hone]
    ring
  have hne : ((n : ℝ) - 1) ≠ 0 := by
    have h2 : (2 : ℝ) ≤ (n : ℝ) := by exact_mod_cast hn
    linarith
  simp only [linspace, List.getElem?_map, List.getElem?_range h1,
    Option.map_some']
  congr 1
  rw [hcast, mul_div_assoc, div_self hne, mul_one]
  ring

/-- C6: Grid shape invariant.  For every charge list, ranges and density
`d ≥ 2`, the sampling step builds `d` evenly spaced coordinates per axis
inclusive of both endpoints (`linspace` has length `d`, first element the
range minimum and last element the range maximum) and produces `Ex`, `Ey`
grids of shape `(d, d)` — for the sampler over either evaluator variant. -/
theorem C6_grid_shape (charges : List (ℝ × ℝ × ℝ)) (x_range y_range : ℝ × ℝ)
    (d : ℕ) (hd : 2 ≤ d) :
    ((linspace x_range.1 x_range.2 d).length = d ∧
     (linspace x_range.1 x_range.2 d)[0]? = some x_range.1 ∧
     (linspace x_range.1 x_range.2 d)[d - 1]? = some x_range.2) ∧
    ((sample get_electric_field charges x_range y_range d).1.length = d ∧
     (∀ row ∈ (sample get_electric_field charges x_range y_range d).1,
        row.length = d) ∧
     (sample get_electric_field charges x_range y_range d).2.length = d ∧
     (∀ row ∈ (sample get_electric_field charges x_range y_range d).2,
        row.length = d)) ∧
    ((sample get_electric_field0 charges x_range y_range d).1.length = d ∧
     (∀ row ∈ (sample get_electric_field0 charges x_range y_range d).1,
        row.length = d) ∧
     (sample get_electric_field0 charges x_range y_range d).2.length = d ∧
     (∀ row ∈ (sample get_electric_field0 charges x_range y_range d).2,
        row.length = d)) := by
  have h0 : 0 < d := by omega
  refine ⟨⟨linspace_length x_range.1 x_range.2 d,
    linspace_first x_range.1 x_range.2 d h0,
    linspace_last x_range.1 x_range.2 d hd⟩,
    ⟨?_, ?_, ?_, ?_⟩, ⟨?_, ?_, ?_, ?_⟩⟩
  all_goals
    first
      | (simp only [sample, List.length_map, linspace_length]; done)
      | (intro row hrow
         simp only [sample, List.mem_map] at hrow
         obtain ⟨yv, hyv, rfl⟩ := hrow
         simp only [List.length_map, linspace_length])

/-- Witness for C6 at `charges = []`, ranges `(-10, 10)`, density 25. -/
theorem C6_grid_shape_witness :
    (2 ≤ 25) ∧
    (((linspace ((-10 : ℝ), (10 : ℝ)).1 ((-10 : ℝ), (10 : ℝ)).2 25).length
        = 25 ∧
      (linspace ((-10 : ℝ), (10 : ℝ)).1 ((-10 : ℝ), (10 : ℝ)).2 25)[0]? =
        some ((-10 : ℝ), (10 : ℝ)).1 ∧
      (linspace ((-10 : ℝ), (10 : ℝ)).1 ((-10 : ℝ), (10 : ℝ)).2 25)[25 - 1]?
        = some ((-10 : ℝ), (10 : ℝ)).2) ∧
     ((sample get_electric_field [] ((-10 : ℝ), (10 : ℝ))
         ((-10 : ℝ), (10 : ℝ)) 25).1.length = 25 ∧
      (∀ row ∈ (sample get_electric_field [] ((-10 : ℝ), (10 : ℝ))
         ((-10 : ℝ), (10 : ℝ)) 25).1, row.length = 25) ∧
      (sample get_electric_field [] ((-10 : ℝ), (10 : ℝ))
         ((-10 : ℝ), (10 : ℝ)) 25).2.length = 25 ∧
      (∀ row ∈ (sample get_electric_field [] ((-10 : ℝ), (10 : ℝ))
         ((-10 : ℝ), (10 : ℝ)) 25).2, row.length = 25)) ∧
     ((sample get_electric_field0 [] ((-10 : ℝ), (10 : ℝ))
         ((-10 : ℝ), (10 : ℝ)) 25).1.length = 25 ∧
      (∀ row ∈ (sample get_electric_field0 [] ((-10 : ℝ), (10 : ℝ))
         ((-10 : ℝ), (10 : ℝ)) 25).1, row.length = 25) ∧
      (sample get_electric_field0 [] ((-10 : ℝ), (10 : ℝ))
         ((-10 : ℝ), (10 : ℝ)) 25).2.length = 25 ∧
      (∀ row ∈ (sample get_electric_field0 [] ((-10 : ℝ), (10 : ℝ))
         ((-10 : ℝ), (10 : ℝ)) 25).2, row.length = 25))) :=
  ⟨by norm_num,
   C6_grid_shape [] ((-10 : ℝ), (10 : ℝ)) ((-10 : ℝ), (10 : ℝ)) 25
     (by norm_num)⟩

/-- C7: Zero-charge grid.  With the empty charge list the evaluator returns
`(0, 0)` at every point in both variants, and the sampling step (density
`d ≥ 2`, any ranges) produces all-zero `Ex`, `Ey` grids of shape
`(d, d)`. -/
theorem C7_zero_charge_grid (x_range y_range : ℝ × ℝ) (d : ℕ)
    (hd : 2 ≤ d) :
    (∀ x y : ℝ, get_electric_field [] x y = (0, 0) ∧
       get_electric_field0 [] x y = (0, 0)) ∧
    ((sample get_electric_field [] x_range y_range d).1.length = d ∧
     (sample get_electric_field [] x_range y_range d).2.length = d ∧
     (∀ row ∈ (sample get_electric_field [] x_range y_range d).1,
        row.length = d ∧ ∀ v ∈ row, v = 0) ∧
     (∀ row ∈ (sample get_electric_field [] x_range y_range d).2,
        row.length = d ∧ ∀ v ∈ row, v = 0)) ∧
    ((sample get_electric_field0 [] x_range y_range d).1.length = d ∧
     (sample get_electric_field0 [] x_range y_range d).2.length = d ∧
     (∀ row ∈ (sample get_electric_field0 [] x_range y_range d).1,
        row.length = d ∧ ∀ v ∈ row, v = 0) ∧
     (∀ row ∈ (sample get_electric_field0 [] x_range y_range d).2,
        row.length = d ∧ ∀ v ∈ row, v = 0)) := by
  refine ⟨fun x y => ⟨rfl, rfl⟩, ⟨?_, ?_, ?_, ?_⟩, ⟨?_, ?_, ?_, ?_⟩⟩
  all_goals
    first
      | (simp only [sample, List.length_map, linspace_length]; done)
      | (intro row hrow
         simp only [sample, List.mem_map] at hrow
         obtain ⟨yv, hyv, rfl⟩ := hrow
         refine ⟨by simp only [List.length_map, linspace_length], ?_⟩
         intro v hv
         simp only [List.mem_map] at hv
         obtain ⟨xv, hxv, rfl⟩ := hv
         rfl)

/-- Witness for C7 at ranges `(-10, 10)`, density 25. -/
theorem C7_zero_charge_grid_witness :
    (2 ≤ 25) ∧
    ((∀ x y : ℝ, get_electric_field [] x y = (0, 0) ∧
        get_electric_field0 [] x y = (0, 0)) ∧
     ((sample get_electric_field [] ((-10 : ℝ), (10 : ℝ))
         ((-10 : ℝ), (10 : ℝ)) 25).1.length = 25 ∧
      (sample get_electric_field [] ((-10 : ℝ), (10 : ℝ))
         ((-10 : ℝ), (10 : ℝ)) 25).2.length = 25 ∧
      (∀ row ∈ (sample get_electric_field [] ((-10 : ℝ), (10 : ℝ))
         ((-10 : ℝ), (10 : ℝ)) 25).1,
         row.length = 25 ∧ ∀ v ∈ row, v = 0) ∧
      (∀ row ∈ (sample get_electric_field [] ((-10 : ℝ), (10 : ℝ))
         ((-10 : ℝ), (10 : ℝ)) 25).2,
         row.length = 25 ∧ ∀ v ∈ row, v = 0)) ∧
     ((sample get_electric_field0 [] ((-10 : ℝ), (10 : ℝ))
         ((-10 : ℝ), (10 : ℝ)) 25).1.length = 25 ∧
      (sample get_electric_field0 [] ((-10 : ℝ), (10 : ℝ))
         ((-10 : ℝ), (10 : ℝ)) 25).2.length = 25 ∧
      (∀ row ∈ (sample get_electric_field0 [] ((-10 : ℝ), (10 : ℝ))
         ((-10 : ℝ), (10 : ℝ)) 25).1,
         row.length = 25 ∧ ∀ v ∈ row, v = 0) ∧
      (∀ row ∈ (sample get_electric_field0 [] ((-10 : ℝ), (10 : ℝ))
         ((-10 : ℝ), (10 : ℝ)) 25).2,
         row.length = 25 ∧ ∀ v ∈ row, v = 0))) :=
  ⟨by norm_num,
   C7_zero_charge_grid ((-10 : ℝ), (10 : ℝ)) ((-10 : ℝ), (10 : ℝ)) 25
     (by norm_num)⟩

end EField
